import Mathlib

/-!
Formal model of the two helper functions of the Seasonal Bloom Calendar
application (src/app.py): extract_seasons (lines 26-39) and
map_color_token (lines 41-61).  Strings are modelled as Lean Strings /
lists of Chars; the value None (or any non-string Python value) passed
to either function is modelled as the Option.none case of an
Option String argument; a Python exception escaping map_color_token is
modelled as an Option.none result.
-/

/-- Boolean test that the word w occurs at the very start of l. -/
def startsWith : List Char → List Char → Bool
  | [], _ => true
  | _ :: _, [] => false
  | c :: cs, d :: ds => c == d && startsWith cs ds

/-- Boolean test that the word w occurs somewhere inside l (as a
contiguous slice). -/
def occursIn (w : List Char) : List Char → Bool
  | [] => startsWith w []
  | c :: cs => startsWith w (c :: cs) || occursIn w cs

/-- Fuel-indexed scanner modelling the Python call
re.findall(r'(spring|summer|autumn|fall|winter)', text, flags=re.I)
run over the lowercased text.  The regex engine scans left to right;
at each position it tries the five literal alternatives in order, and
on a match records it and resumes right after the matched slice,
otherwise it advances one character.  re.findall returns the matched
slice of the original text; extract_seasons immediately lowercases every
found slice (f.lower()), and since matching is case-insensitive the
lowercased slice is exactly the pattern word, so the scanner works on the
lowercased text and emits the pattern words themselves.  Each step
consumes at least one character, so fuel = length of the list is enough. -/
def scanF : Nat → List Char → List (List Char)
  | 0, _ => []
  | _ + 1, [] => []
  | fuel + 1, c :: cs =>
    if startsWith "spring".data (c :: cs) then
      "spring".data :: scanF fuel ((c :: cs).drop 6)
    else if startsWith "summer".data (c :: cs) then
      "summer".data :: scanF fuel ((c :: cs).drop 6)
    else if startsWith "autumn".data (c :: cs) then
      "autumn".data :: scanF fuel ((c :: cs).drop 6)
    else if startsWith "fall".data (c :: cs) then
      "fall".data :: scanF fuel ((c :: cs).drop 4)
    else if startsWith "winter".data (c :: cs) then
      "winter".data :: scanF fuel ((c :: cs).drop 6)
    else scanF fuel cs

/-- The list of (lowercased) season tokens found in l, in order:
models re.findall of the five-word alternation over the lowercased text. -/
def findall_seasons (l : List Char) : List (List Char) := scanF l.length l

/-- The five alternatives of the regex in src/app.py line 29. -/
def seasonTokens : List (List Char) :=
  ["spring".data, "summer".data, "autumn".data, "fall".data, "winter".data]

/-- Python str.capitalize(): first character uppercased, the rest
lowercased. -/
def pyCapitalize (s : String) : String :=
  match s.data with
  | [] => ""
  | c :: cs => String.mk (c.toUpper :: cs.map Char.toLower)

/-- The mapping applied to each lowercased found token f_low in the loop of
extract_seasons (src/app.py lines 32-36): 'fall' becomes 'Autumn', any
other found token is capitalized. -/
def canonSeason (f : List Char) : String :=
  if f = "fall".data then "Autumn" else pyCapitalize (String.mk f)

/-- One iteration of the accumulation loop of extract_seasons
(src/app.py lines 31-38): append the canonical name unless it is already
present. -/
def insSeason (mapped : List String) (f : List Char) : List String :=
  if canonSeason f ∈ mapped then mapped else mapped ++ [canonSeason f]

/-- Model of extract_seasons (src/app.py lines 26-39).  The none case
models any non-string argument (the isinstance check on line 27). -/
def extract_seasons : Option String → List String
  | none => []
  | some text => (findall_seasons (text.data.map Char.toLower)).foldl insSeason []

/-- The canonical season order of src/app.py line 136. -/
def season_order : List String := ["Spring", "Summer", "Autumn", "Winter"]

/-- Specification-side deduplication keeping the first occurrence of every
element, in first-occurrence order. -/
def dedupFirst : List String → List String
  | [] => []
  | x :: xs => x :: (dedupFirst xs).filter (fun y => decide (y ≠ x))

/-- The canonical names of all found tokens of a string, in found order,
before deduplication. -/
def mappedSeasons (s : String) : List String :=
  (findall_seasons (s.data.map Char.toLower)).map canonSeason

/-- Python whitespace for str.strip() / str.split(): space, tab, CR, LF,
vertical tab and form feed. -/
def pyIsSpace (c : Char) : Bool :=
  c.isWhitespace || c = Char.ofNat 11 || c = Char.ofNat 12

/-- The five characters of the regex class [/,;|-] in src/app.py line 45. -/
def isSepChar (c : Char) : Bool :=
  c == '/' || c == ',' || c == ';' || c == '|' || c == '-'

/-- Python str.strip(): remove leading and trailing whitespace. -/
def pyStrip (l : List Char) : List Char :=
  ((l.dropWhile pyIsSpace).reverse.dropWhile pyIsSpace).reverse

/-- The last whitespace-separated word of a list of characters: models
token.split()[-1] (src/app.py line 46) when the split is non-empty. -/
def lastWord (l : List Char) : List Char :=
  ((l.reverse.dropWhile pyIsSpace).takeWhile (fun c => !pyIsSpace c)).reverse

/-- The color table of src/app.py lines 47-60. -/
def color_map : List (String × String) :=
  [("yellow", "gold"),
   ("red", "red"),
   ("pink", "hotpink"),
   ("white", "lightgray"),
   ("purple", "purple"),
   ("blue", "blue"),
   ("orange", "darkorange"),
   ("cream", "wheat"),
   ("green", "green"),
   ("gold", "gold"),
   ("brown", "saddlebrown"),
   ("lavender", "violet")]

/-- The token computed on src/app.py line 45: the part of the text before
the first of the separator characters /,;|- , stripped and lowercased. -/
def color_token (s : String) : List Char :=
  (pyStrip (s.data.takeWhile (fun c => !isSepChar c))).map Char.toLower

/-- Model of map_color_token (src/app.py lines 41-61).  The input none
models any non-string argument; the output none models the IndexError
raised on line 46 when token.split() is empty, which happens exactly when
the stripped first segment is empty (token.split() of a stripped string is
empty iff the string is empty, and its last element is the last
whitespace-separated word, lastWord). -/
def map_color_token : Option String → Option String
  | none => some "lightgray"
  | some s =>
    if pyStrip s.data = [] then some "lightgray"
    else if color_token s = [] then none
    else
      some ((color_map.lookup (String.mk (lastWord (color_token s)))).getD
        (String.mk (lastWord (color_token s))))

/-! Helper lemmas about the word-search primitives. -/

theorem startsWith_iff (w l : List Char) :
    startsWith w l = true ↔ ∃ t, l = w ++ t := by
  induction w generalizing l with
  | nil => simp [startsWith]
  | cons c cs ih =>
    cases l with
    | nil =>
      simp [startsWith]
    | cons d ds =>
      simp only [startsWith, Bool.and_eq_true, beq_iff_eq, ih]
      constructor
      · rintro ⟨hcd, t, ht⟩
        exact ⟨t, by rw [hcd, ht]; rfl⟩
      · rintro ⟨t, ht⟩
        rw [List.cons_append] at ht
        injection ht with h1 h2
        exact ⟨h1.symm, t, h2⟩

theorem occursIn_iff (w l : List Char) :
    occursIn w l = true ↔ ∃ pre suf, l = pre ++ (w ++ suf) := by
  induction l with
  | nil =>
    simp only [occursIn, startsWith_iff]
    constructor
    · rintro ⟨t, ht⟩
      exact ⟨[], t, ht⟩
    · rintro ⟨pre, suf, h⟩
      rcases List.append_eq_nil.mp h.symm with ⟨h1, h2⟩
      exact ⟨suf, h2.symm⟩
  | cons c cs ih =>
    simp only [occursIn, Bool.or_eq_true, startsWith_iff, ih]
    constructor
    · rintro (⟨t, ht⟩ | ⟨pre, suf, h⟩)
      · exact ⟨[], t, ht⟩
      · exact ⟨c :: pre, suf, by rw [h]; rfl⟩
    · rintro ⟨pre, suf, h⟩
      cases pre with
      | nil => exact Or.inl ⟨suf, by simpa using h⟩
      | cons p ps =>
        rw [List.cons_append] at h
        injection h with h1 h2
        exact Or.inr ⟨ps, suf, h2⟩

theorem mem_left_of_append {α : Type} (a b c d : List α) (x : α)
    (h : a ++ x :: b = c ++ d) (hlen : a.length < c.length) : x ∈ c := by
  induction a generalizing c with
  | nil =>
    cases c with
    | nil => simp at hlen
    | cons e es =>
      rw [List.nil_append, List.cons_append] at h
      injection h with h1 _
      rw [h1]
      exact List.mem_cons_self _ _
  | cons y ys ih =>
    cases c with
    | nil => simp at hlen
    | cons e es =>
      rw [List.cons_append, List.cons_append] at h
      injection h with _ h2
      simp only [List.length_cons, Nat.add_lt_add_iff_right] at hlen
      exact List.mem_cons_of_mem _ (ih es h2 hlen)

theorem drop_append_of_le {α : Type} (n : Nat) (a b : List α)
    (h : n ≤ a.length) : (a ++ b).drop n = a.drop n ++ b := by
  induction a generalizing n with
  | nil =>
    have : n = 0 := Nat.le_zero.mp h
    simp [this]
  | cons x xs ih =>
    cases n with
    | zero => rfl
    | succ m =>
      simp only [List.cons_append, List.drop_succ_cons]
      exact ih m (Nat.le_of_succ_le_succ h)

/-! Lemmas about the scanner. -/

theorem scanF_emits : ∀ (fuel : Nat) (l : List Char), ∀ x ∈ scanF fuel l, x ∈ seasonTokens := by
  intro fuel
  induction fuel with
  | zero => intro l x hx; simp [scanF] at hx
  | succ n ih =>
    intro l x hx
    cases l with
    | nil => simp [scanF] at hx
    | cons c cs =>
      simp only [scanF] at hx
      split_ifs at hx with h1 h2 h3 h4 h5
      · rcases List.mem_cons.mp hx with rfl | hx
        · decide
        · exact ih _ x hx
      · rcases List.mem_cons.mp hx with rfl | hx
        · decide
        · exact ih _ x hx
      · rcases List.mem_cons.mp hx with rfl | hx
        · decide
        · exact ih _ x hx
      · rcases List.mem_cons.mp hx with rfl | hx
        · decide
        · exact ih _ x hx
      · rcases List.mem_cons.mp hx with rfl | hx
        · decide
        · exact ih _ x hx
      · exact ih cs x hx

theorem scanF_nil_of_not_occurs : ∀ (fuel : Nat) (l : List Char),
    (∀ w ∈ seasonTokens, occursIn w l = false) → scanF fuel l = [] := by
  intro fuel
  induction fuel with
  | zero => intro l _; rfl
  | succ n ih =>
    intro l h
    cases l with
    | nil => rfl
    | cons c cs =>
      have hsp := h "spring".data (by decide)
      have hsu := h "summer".data (by decide)
      have hau := h "autumn".data (by decide)
      have hfa := h "fall".data (by decide)
      have hwi := h "winter".data (by decide)
      simp only [occursIn, Bool.or_eq_false_iff] at hsp hsu hau hfa hwi
      simp only [scanF, hsp.1, hsu.1, hau.1, hfa.1, hwi.1, Bool.false_eq_true, if_false]
      apply ih cs
      intro w hw
      have hw5 : w = "spring".data ∨ w = "summer".data ∨ w = "autumn".data ∨
          w = "fall".data ∨ w = "winter".data := by
        simpa [seasonTokens] using hw
      rcases hw5 with rfl | rfl | rfl | rfl | rfl
      · exact hsp.2
      · exact hsu.2
      · exact hau.2
      · exact hfa.2
      · exact hwi.2

theorem fall_occurs_drop {w l : List Char} (hwlen : w.length = 6)
    (hf : ('f' : Char) ∉ w) (hw : startsWith w l = true)
    (hocc : occursIn "fall".data l = true) :
    occursIn "fall".data (l.drop 6) = true := by
  obtain ⟨pre, suf, hps⟩ := (occursIn_iff _ _).mp hocc
  obtain ⟨t, ht⟩ := (startsWith_iff _ _).mp hw
  by_cases hk : 6 ≤ pre.length
  · apply (occursIn_iff _ _).mpr
    refine ⟨pre.drop 6, suf, ?_⟩
    rw [hps, drop_append_of_le 6 pre _ hk]
  · exfalso
    apply hf
    have hx : pre ++ 'f' :: ("all".data ++ suf) = w ++ t := by
      rw [← ht, hps]; rfl
    exact mem_left_of_append pre ("all".data ++ suf) w t 'f' hx (by omega)

theorem fall_mem_scanF : ∀ (fuel : Nat) (l : List Char), l.length ≤ fuel →
    occursIn "fall".data l = true → "fall".data ∈ scanF fuel l := by
  intro fuel
  induction fuel with
  | zero =>
    intro l hl hocc
    have hnil : l = [] := List.eq_nil_of_length_eq_zero (Nat.le_zero.mp hl)
    rw [hnil] at hocc
    exact absurd hocc (by decide)
  | succ n ih =>
    intro l hl hocc
    cases l with
    | nil => exact absurd hocc (by decide)
    | cons c cs =>
      simp only [scanF]
      split_ifs with h1 h2 h3 h4 h5
      · refine List.mem_cons_of_mem _ (ih _ ?_ ?_)
        · rw [List.length_drop]; omega
        · exact fall_occurs_drop (by decide) (by decide) h1 hocc
      · refine List.mem_cons_of_mem _ (ih _ ?_ ?_)
        · rw [List.length_drop]; omega
        · exact fall_occurs_drop (by decide) (by decide) h2 hocc
      · refine List.mem_cons_of_mem _ (ih _ ?_ ?_)
        · rw [List.length_drop]; omega
        · exact fall_occurs_drop (by decide) (by decide) h3 hocc
      · exact List.mem_cons_self _ _
      · refine List.mem_cons_of_mem _ (ih _ ?_ ?_)
        · rw [List.length_drop]; omega
        · exact fall_occurs_drop (by decide) (by decide) h5 hocc
      · apply ih cs (by simp at hl ⊢; omega)
        simp only [occursIn, Bool.or_eq_true] at hocc
        rcases hocc with hstart | hrest
        · exact absurd hstart h4
        · exact hrest

/-! Lemmas about the accumulation loop and first-occurrence
deduplication. -/

theorem filter_ne_of_mem {s : String} {acc : List String} (h : s ∈ acc)
    (d : List String) :
    (d.filter (fun y => decide (y ≠ s))).filter (fun y => decide (y ∉ acc)) =
      d.filter (fun y => decide (y ∉ acc)) := by
  rw [List.filter_filter]
  apply List.filter_congr
  intro a _
  by_cases hacc : a ∈ acc
  · simp [hacc]
  · have hs : a ≠ s := fun he => hacc (he ▸ h)
    simp [hacc, hs]

theorem filter_not_mem_append (s : String) (acc d : List String) :
    d.filter (fun y => decide (y ∉ acc ++ [s])) =
      (d.filter (fun y => decide (y ≠ s))).filter (fun y => decide (y ∉ acc)) := by
  rw [List.filter_filter]
  apply List.filter_congr
  intro a _
  by_cases hacc : a ∈ acc
  · simp [List.mem_append, hacc]
  · by_cases hs : a = s
    · subst hs
      simp [List.mem_append, hacc]
    · simp [List.mem_append, hacc, hs]

theorem foldl_insSeason_eq (l : List (List Char)) (acc : List String) :
    l.foldl insSeason acc =
      acc ++ (dedupFirst (l.map canonSeason)).filter (fun y => decide (y ∉ acc)) := by
  induction l generalizing acc with
  | nil => simp [dedupFirst]
  | cons f fs ih =>
    simp only [List.foldl_cons, List.map_cons, dedupFirst]
    by_cases hs : canonSeason f ∈ acc
    · rw [show insSeason acc f = acc from by simp [insSeason, hs]]
      rw [ih acc]
      congr 1
      simp only [List.filter_cons]
      rw [if_neg (by simp [hs])]
      exact (filter_ne_of_mem hs _).symm
    · rw [show insSeason acc f = acc ++ [canonSeason f] from by simp [insSeason, hs]]
      rw [ih (acc ++ [canonSeason f])]
      rw [filter_not_mem_append]
      simp only [List.filter_cons]
      rw [if_pos (by simp [hs])]
      simp [List.append_assoc]

theorem filter_not_mem_nil (d : List String) :
    d.filter (fun y => decide (y ∉ ([] : List String))) = d := by
  induction d with
  | nil => rfl
  | cons x xs ih => simp [List.filter_cons, ih]

theorem extract_eq_dedupFirst (s : String) :
    extract_seasons (some s) = dedupFirst (mappedSeasons s) := by
  show (findall_seasons (s.data.map Char.toLower)).foldl insSeason [] = _
  rw [foldl_insSeason_eq, filter_not_mem_nil, List.nil_append]
  rfl

theorem mem_dedupFirst {x : String} : ∀ (l : List String), x ∈ dedupFirst l ↔ x ∈ l := by
  intro l
  induction l with
  | nil => simp [dedupFirst]
  | cons a as ih =>
    simp only [dedupFirst, List.mem_cons, List.mem_filter, ih, decide_eq_true_eq]
    constructor
    · rintro (rfl | ⟨hmem, _⟩)
      · exact Or.inl rfl
      · exact Or.inr hmem
    · rintro (rfl | hmem)
      · exact Or.inl rfl
      · by_cases hxa : x = a
        · exact Or.inl hxa
        · exact Or.inr ⟨hmem, hxa⟩

theorem dedupFirst_nodup : ∀ (l : List String), (dedupFirst l).Nodup := by
  intro l
  induction l with
  | nil => simp [dedupFirst]
  | cons a as ih =>
    rw [dedupFirst, List.nodup_cons]
    constructor
    · intro hmem
      rcases List.mem_filter.mp hmem with ⟨_, hne⟩
      simp at hne
    · exact ih.filter _

/-! Whitespace lemmas. -/

theorem toLower_space {c : Char} (h : pyIsSpace c = true) : c.toLower = c := by
  have h6 : c = ' ' ∨ c = '\t' ∨ c = '\r' ∨ c = '\n' ∨
      c = Char.ofNat 11 ∨ c = Char.ofNat 12 := by
    simpa [pyIsSpace, Char.isWhitespace, or_assoc] using h
  rcases h6 with rfl | rfl | rfl | rfl | rfl | rfl <;> decide

theorem occursIn_false_of_headchar {m : List Char}
    (hm : ∀ x ∈ m, pyIsSpace x = true) (c : Char) (w : List Char)
    (hc : pyIsSpace c = false) : occursIn (c :: w) m = false := by
  induction m with
  | nil => rfl
  | cons d ds ih =>
    have hd : pyIsSpace d = true := hm d (List.mem_cons_self _ _)
    have hcd : (c == d) = false := by
      apply beq_eq_false_iff_ne.mpr
      intro hcd
      rw [hcd, hd] at hc
      simp at hc
    simp only [occursIn, startsWith, hcd, Bool.false_and, Bool.false_or]
    exact ih (fun x hx => hm x (List.mem_cons_of_mem _ hx))

/-! Claim theorems. -/

/-- Claim C1, counterexample: extract_seasons does not expand a range
clause along the cycle; on the claim's own example "Autumn-Spring" it
returns only the two endpoint seasons, not the wrapped run
["Autumn", "Winter", "Spring"]. -/
theorem extract_seasons_range_counterexample :
    extract_seasons (some "Autumn-Spring") = ["Autumn", "Spring"] ∧
    extract_seasons (some "Autumn-Spring") ≠ ["Autumn", "Winter", "Spring"] := by
  decide

/-- Claim C1 (amended): for every range clause "A-B" with A and B members
of the canonical season cycle, extract_seasons emits exactly the two
endpoint seasons in order of appearance (deduplicated when A = B), with no
interior seasons and no wrap-around expansion. -/
theorem extract_seasons_range_endpoints :
    ∀ a ∈ season_order, ∀ b ∈ season_order,
      extract_seasons (some (a ++ "-" ++ b)) = dedupFirst [a, b] := by
  decide

theorem extract_seasons_range_endpoints_witness :
    extract_seasons (some ("Autumn" ++ "-" ++ "Spring")) = dedupFirst ["Autumn", "Spring"] :=
  extract_seasons_range_endpoints "Autumn" (by decide) "Spring" (by decide)

/-- Claim C2, counterexample: map_color_token "Pale Purple" is not
"violet". -/
theorem map_color_token_pale_purple_not_violet :
    map_color_token (some "Pale Purple") ≠ some "violet" := by
  decide

/-- Claim C2 (amended): map_color_token applied to "Pale Purple" returns
"purple" (the extracted last word "purple" maps to itself in the table;
"violet" is the table entry for "lavender"). -/
theorem map_color_token_pale_purple :
    map_color_token (some "Pale Purple") = some "purple" := by
  decide

/-- Claim C3: the code, evaluated at the failing input "-red", raises an
IndexError (modelled as none) instead of returning a fallback value: the
segment before the first separator is empty, so token.split() is empty and
the [-1] index fails. -/
theorem map_color_token_raises_on_dash_red :
    map_color_token (some "-red") = none := by
  decide

/-- Claim C4: for every input string equal, after lowercasing, to one of
the canonical season names, extract_seasons returns the one-element
sequence with that season's canonical capitalized name. -/
theorem extract_seasons_single_season :
    ∀ (s : String), ∀ w ∈ season_order,
      s.data.map Char.toLower = w.data.map Char.toLower →
      extract_seasons (some s) = [w] := by
  intro s w hw hlow
  have hw4 : w = "Spring" ∨ w = "Summer" ∨ w = "Autumn" ∨ w = "Winter" := by
    simpa [season_order] using hw
  rcases hw4 with rfl | rfl | rfl | rfl
  · rw [show ("Spring".data.map Char.toLower) = "spring".data from by decide] at hlow
    show (findall_seasons (s.data.map Char.toLower)).foldl insSeason [] = _
    rw [hlow]
    decide
  · rw [show ("Summer".data.map Char.toLower) = "summer".data from by decide] at hlow
    show (findall_seasons (s.data.map Char.toLower)).foldl insSeason [] = _
    rw [hlow]
    decide
  · rw [show ("Autumn".data.map Char.toLower) = "autumn".data from by decide] at hlow
    show (findall_seasons (s.data.map Char.toLower)).foldl insSeason [] = _
    rw [hlow]
    decide
  · rw [show ("Winter".data.map Char.toLower) = "winter".data from by decide] at hlow
    show (findall_seasons (s.data.map Char.toLower)).foldl insSeason [] = _
    rw [hlow]
    decide

theorem extract_seasons_single_season_witness :
    extract_seasons (some "SPRING") = ["Spring"] :=
  extract_seasons_single_season "SPRING" "Spring" (by decide) (by decide)

/-- Claim C5, counterexample: the clause "Springtime" is not a member of
the canonical cycle (even case-insensitively), yet extract_seasons does
not discard it: the season word is matched as a substring and the clause
contributes "Spring". -/
theorem extract_seasons_springtime_counterexample :
    extract_seasons (some "Springtime") = ["Spring"] ∧
    (∀ w ∈ season_order, ¬ "Springtime".data.map Char.toLower = w.data.map Char.toLower) := by
  decide

/-- Claim C5 (amended): a clause contributes nothing exactly when it
contains no season word (spring, summer, autumn, fall, winter) as a
case-insensitive substring: any input with no such substring yields the
empty sequence, and "Monsoon,Spring" yields exactly ["Spring"]. -/
theorem extract_seasons_unmatched_dropped :
    (∀ s : String, (∀ w ∈ seasonTokens, occursIn w (s.data.map Char.toLower) = false) →
        extract_seasons (some s) = []) ∧
    extract_seasons (some "Monsoon,Spring") = ["Spring"] := by
  constructor
  · intro s h
    show (findall_seasons (s.data.map Char.toLower)).foldl insSeason [] = []
    have h0 : findall_seasons (s.data.map Char.toLower) = [] :=
      scanF_nil_of_not_occurs _ _ h
    rw [h0]
    rfl
  · decide

theorem extract_seasons_unmatched_dropped_witness :
    extract_seasons (some "Monsoon") = [] :=
  extract_seasons_unmatched_dropped.1 "Monsoon" (by decide)

/-- Claim C6: for every input, the returned sequence has no duplicates and
equals the first-occurrence deduplication of the (mapped) found season
tokens, so retained elements appear in the order of their first
occurrence; "Spring,Spring-Summer" yields ["Spring", "Summer"]. -/
theorem extract_seasons_nodup_first_occurrence :
    (∀ t : Option String, (extract_seasons t).Nodup) ∧
    (∀ s : String, extract_seasons (some s) = dedupFirst (mappedSeasons s)) ∧
    extract_seasons (some "Spring,Spring-Summer") = ["Spring", "Summer"] := by
  refine ⟨?_, extract_eq_dedupFirst, by decide⟩
  intro t
  cases t with
  | none => simp [extract_seasons]
  | some s =>
    rw [extract_eq_dedupFirst]
    exact dedupFirst_nodup _

/-- Claim C7: extract_seasons returns the empty sequence on a non-string
(or null) input, on the empty string, and on any whitespace-only string;
the model is a total function, so no error is raised. -/
theorem extract_seasons_empty_input :
    extract_seasons none = [] ∧
    extract_seasons (some "") = [] ∧
    (∀ s : String, (∀ c ∈ s.data, pyIsSpace c = true) → extract_seasons (some s) = []) := by
  refine ⟨rfl, by decide, ?_⟩
  intro s h
  have hm : ∀ x ∈ s.data.map Char.toLower, pyIsSpace x = true := by
    intro x hx
    rcases List.mem_map.mp hx with ⟨c, hc, rfl⟩
    rw [toLower_space (h c hc)]
    exact h c hc
  have hno : ∀ w ∈ seasonTokens, occursIn w (s.data.map Char.toLower) = false := by
    intro w hw
    have hw5 : w = "spring".data ∨ w = "summer".data ∨ w = "autumn".data ∨
        w = "fall".data ∨ w = "winter".data := by
      simpa [seasonTokens] using hw
    rcases hw5 with rfl | rfl | rfl | rfl | rfl
    · exact occursIn_false_of_headchar hm 's' "pring".data (by decide)
    · exact occursIn_false_of_headchar hm 's' "ummer".data (by decide)
    · exact occursIn_false_of_headchar hm 'a' "utumn".data (by decide)
    · exact occursIn_false_of_headchar hm 'f' "all".data (by decide)
    · exact occursIn_false_of_headchar hm 'w' "inter".data (by decide)
  show (findall_seasons (s.data.map Char.toLower)).foldl insSeason [] = []
  have h0 : findall_seasons (s.data.map Char.toLower) = [] :=
    scanF_nil_of_not_occurs _ _ hno
  rw [h0]
  rfl

theorem extract_seasons_empty_input_witness :
    extract_seasons (some "  ") = [] :=
  extract_seasons_empty_input.2.2 "  " (by decide)

/-- Claim C8: every element of the sequence returned by extract_seasons is
a member of the canonical season cycle ["Spring", "Summer", "Autumn",
"Winter"]. -/
theorem extract_seasons_mem_canonical :
    ∀ (t : Option String) (x : String), x ∈ extract_seasons t → x ∈ season_order := by
  intro t x hx
  cases t with
  | none => simp [extract_seasons] at hx
  | some s =>
    rw [extract_eq_dedupFirst] at hx
    have hx2 : x ∈ mappedSeasons s := (mem_dedupFirst _).mp hx
    rcases List.mem_map.mp hx2 with ⟨f, hf, rfl⟩
    have htok : f ∈ seasonTokens := scanF_emits _ _ f hf
    have h5 : f = "spring".data ∨ f = "summer".data ∨ f = "autumn".data ∨
        f = "fall".data ∨ f = "winter".data := by
      simpa [seasonTokens] using htok
    rcases h5 with rfl | rfl | rfl | rfl | rfl <;> decide

theorem extract_seasons_mem_canonical_witness :
    "Spring" ∈ season_order :=
  extract_seasons_mem_canonical (some "spring") "Spring" (by decide)

/-- Claim C9: when the extracted color word is absent from the table,
map_color_token returns the lowercased word itself (fallback passthrough,
e.g. "unknownhue"); the empty string and a non-string input both give the
default fallback color "lightgray". -/
theorem map_color_token_fallback :
    (∀ s : String, pyStrip s.data ≠ [] → color_token s ≠ [] →
        color_map.lookup (String.mk (lastWord (color_token s))) = none →
        map_color_token (some s) = some (String.mk (lastWord (color_token s)))) ∧
    map_color_token (some "unknownhue") = some "unknownhue" ∧
    map_color_token (some "") = some "lightgray" ∧
    map_color_token none = some "lightgray" := by
  refine ⟨?_, by decide, by decide, rfl⟩
  intro s h1 h2 h3
  simp only [map_color_token]
  rw [if_neg h1, if_neg h2, h3]
  rfl

theorem map_color_token_fallback_witness :
    map_color_token (some "grayish") = some "grayish" :=
  map_color_token_fallback.1 "grayish" (by decide) (by decide) (by decide)

/-- Claim C10: every occurrence of the word "fall" (any letter case) in
the input contributes the canonical token "Autumn" to the output; input
"Fall" yields ["Autumn"]. -/
theorem extract_seasons_fall_synonym :
    (∀ s : String, occursIn "fall".data (s.data.map Char.toLower) = true →
        "Autumn" ∈ extract_seasons (some s)) ∧
    extract_seasons (some "Fall") = ["Autumn"] := by
  refine ⟨?_, by decide⟩
  intro s h
  rw [extract_eq_dedupFirst]
  apply (mem_dedupFirst _).mpr
  apply List.mem_map.mpr
  refine ⟨"fall".data, ?_, by decide⟩
  exact fall_mem_scanF _ _ (Nat.le_refl _) h

theorem extract_seasons_fall_synonym_witness :
    "Autumn" ∈ extract_seasons (some "rainfall") :=
  extract_seasons_fall_synonym.1 "rainfall" (by decide)

